import Mathlib

/-!
# Verification of d2hl (hardlink-based deduplicator)

Shallow embedding of the Go program `d2hl`: the tree traversal callback
`process`, the per-file hashing loop body of `checksum`, and the
hardlink-merge function `dedupe`, together with a model of the POSIX
filesystem calls they use (`os.Rename`, `os.Link`, `os.Remove`, `os.Stat`).

Conventions:
* Go maps become association lists; map iteration order is taken as the
  list order (the program does not rely on any particular order).
* `os.Exit(-1)` / `panic` become the `error` branch of `Except`.
* The concurrent checksum worker pool is modelled as sequential processing
  of the candidate list in dispatch order; all per-file claims are
  insensitive to interleaving, and bucket-internal path order is
  acknowledged by the design to be nondeterministic.
-/

namespace D2hl

/-- Inode numbers (`syscall.Stat_t.Ino`, a `uint64`). -/
abbrev Ino := Nat

/-- The reserved temporary suffix `".tmpdedupe"` used by `dedupe` and
checked for by `process`. -/
def tmpSuffix : String := ".tmpdedupe"

/-- Model of Go `strings.HasSuffix s suf`. -/
def hasSuffixStr (s suf : String) : Bool :=
  suf.data.isSuffixOf s.data

/-! ## Filesystem model

A directory is an association list from path to inode; inode sizes are a
second association list (sizes are attached to inodes, which is what makes
hardlinks share one size).  The operations model the POSIX calls used by
`dedupe`: `rename` atomically moves a directory entry (replacing the
destination if present), `link` creates a second entry for an existing
inode and fails if the destination exists, `remove` deletes an entry,
`stat` reports the size of the inode an entry points at.  Each returns
`none` exactly when the corresponding syscall would return an error that
the program treats as fatal. -/

/-- Remove every entry for path `p` from a directory listing. -/
def delEntry : List (String × Ino) → String → List (String × Ino)
  | [], _ => []
  | e :: rest, p => if e.1 = p then delEntry rest p else e :: delEntry rest p

/-- A filesystem: directory entries plus per-inode sizes (Go `int64`). -/
structure FS where
  dir : List (String × Ino)
  sizes : List (Ino × Int)
deriving DecidableEq, Repr

/-- `os.Stat(p).Size()`: size of the inode that `p` points at; `none` when
the path is missing (stat error). -/
def FS.statSize (fs : FS) (p : String) : Option Int :=
  (fs.dir.lookup p).bind fun i => fs.sizes.lookup i

/-- `os.Rename(src, dst)`: fails when `src` is absent, else moves the
entry (silently replacing `dst`, as POSIX rename does). -/
def FS.rename (fs : FS) (src dst : String) : Option FS :=
  match fs.dir.lookup src with
  | none => none
  | some i => some ⟨(dst, i) :: delEntry (delEntry fs.dir src) dst, fs.sizes⟩

/-- `os.Link(oldname, newname)`: fails when `oldname` is absent or
`newname` already exists, else adds a second entry for the inode. -/
def FS.link (fs : FS) (oldname newname : String) : Option FS :=
  match fs.dir.lookup oldname with
  | none => none
  | some i =>
    match fs.dir.lookup newname with
    | some _ => none
    | none => some ⟨(newname, i) :: fs.dir, fs.sizes⟩

/-- `os.Remove(p)`: fails when `p` is absent. -/
def FS.remove (fs : FS) (p : String) : Option FS :=
  match fs.dir.lookup p with
  | none => none
  | some _ => some ⟨delEntry fs.dir p, fs.sizes⟩

/-! ## The merge engine (`dedupe`) -/

/-- A filesystem mutation performed by `dedupe`. -/
inductive FsOp where
  | rename (src dst : String)
  | link (oldname newname : String)
  | remove (p : String)
deriving DecidableEq, Repr

/-- The fatal errors of `dedupe`; each constructor carries exactly the
path names the Go code logs before calling `os.Exit(-1)`. -/
inductive DedupeErr where
  | statFail (path : String)
  | renameFail (path tmpname : String)
  | linkFail (src dest : String)
  | removeFail (tmpname : String)
deriving DecidableEq, Repr

/-- The state `dedupe` returns: final filesystem, `savings` (Go `int64`),
`ti.DupeCount`, progress-bar ticks, and the trace of mutations performed. -/
structure DedupeResult where
  fs : FS
  savings : Int
  DupeCount : Nat
  pbTicks : Nat
  trace : List FsOp
deriving DecidableEq, Repr

/-- Inner loop of `dedupe` over `names[1:]` of one bucket: for each
non-canonical `name`, in dry-run mode only log; otherwise rename to
`name + ".tmpdedupe"`, link the canonical `first` to `name`, remove the
temp name — any failure is fatal.  Either way accumulate
`savings += size` and `DupeCount++`. -/
def dedupeNames (dry : Bool) (first : String) (size : Int) :
    List String → FS → Int → Nat → List FsOp →
    Except DedupeErr (FS × Int × Nat × List FsOp)
  | [], fs, sv, dc, tr => .ok (fs, sv, dc, tr)
  | name :: rest, fs, sv, dc, tr =>
    if dry then
      dedupeNames dry first size rest fs (sv + size) (dc + 1) tr
    else
      match fs.rename name (name ++ tmpSuffix) with
      | none => .error (.renameFail name (name ++ tmpSuffix))
      | some fs1 =>
        match fs1.link first name with
        | none => .error (.linkFail name first)
        | some fs2 =>
          match fs2.remove (name ++ tmpSuffix) with
          | none => .error (.removeFail (name ++ tmpSuffix))
          | some fs3 =>
            dedupeNames dry first size rest fs3 (sv + size) (dc + 1)
              (tr ++ [.rename name (name ++ tmpSuffix), .link first name,
                      .remove (name ++ tmpSuffix)])

/-- Outer loop of `dedupe` over the bucket map `ti.Sums`: tick the
progress bar, skip buckets with `len(names) <= 1`, stat the canonical
first path (fatal on failure), then run the inner loop. -/
def dedupeBuckets (dry : Bool) :
    List (String × List String) → FS → Int → Nat → Nat → List FsOp →
    Except DedupeErr DedupeResult
  | [], fs, sv, dc, pb, tr => .ok ⟨fs, sv, dc, pb, tr⟩
  | (_, []) :: rest, fs, sv, dc, pb, tr =>
    dedupeBuckets dry rest fs sv dc (pb + 1) tr
  | (_, [_]) :: rest, fs, sv, dc, pb, tr =>
    dedupeBuckets dry rest fs sv dc (pb + 1) tr
  | (_, first :: others) :: rest, fs, sv, dc, pb, tr =>
    match fs.statSize first with
    | none => .error (.statFail first)
    | some size =>
      match dedupeNames dry first size others fs sv dc tr with
      | .error e => .error e
      | .ok (fs1, sv1, dc1, tr1) => dedupeBuckets dry rest fs1 sv1 dc1 (pb + 1) tr1

/-- `dedupe(ti)`: savings and `DupeCount` start at zero. -/
def dedupe (dry : Bool) (Sums : List (String × List String)) (fs : FS) :
    Except DedupeErr DedupeResult :=
  dedupeBuckets dry Sums fs 0 0 0 []

/-! ## The inventory collector (`process`)

`process` is the `filepath.Walk` callback.  A walk entry as seen by the
callback: the path, the `err` argument `Walk` may pass, whether
`info.Mode().IsRegular()` holds, whether `info.Sys()` is a
`*syscall.Stat_t` (`hasStat`), and the `Dev` and `Ino` fields of that stat.
The callback reads only `Ino`; `Dev` is carried because `Stat_t` carries
it and the spec talks about it. -/

structure Entry where
  path : String
  walkErr : Bool
  isRegular : Bool
  hasStat : Bool
  dev : Nat
  ino : Ino
deriving DecidableEq, Repr

/-- Ways the traversal stage kills the run: a propagated walk error
(`doD2hl` logs and returns -1), a leftover `.tmpdedupe` file, or a
`FileInfo` without `Stat_t` (both `os.Exit(-1)`). -/
inductive WalkAbort where
  | walkError
  | leftoverTmp (path : String)
  | noInode (path : String)
deriving DecidableEq, Repr

/-- Collector state: `ti.FileCount`, `ti.Inodes` (a set, kept as the list
of insertions, newest first), and the global `pathlist`. -/
structure CState where
  FileCount : Nat
  Inodes : List Ino
  pathlist : List String
deriving DecidableEq, Repr

/-- One call of the walk callback `process`, in source order: propagate
`err`; skip non-regular entries; abort on the reserved suffix; count the
file; abort without a stat; skip already-seen inodes; else record the
inode and append the path. -/
def processEntry (s : CState) (e : Entry) : Except WalkAbort CState :=
  if e.walkErr then .error .walkError
  else if !e.isRegular then .ok s
  else if hasSuffixStr e.path tmpSuffix then .error (.leftoverTmp e.path)
  else
    let s1 : CState := { s with FileCount := s.FileCount + 1 }
    if !e.hasStat then .error (.noInode e.path)
    else if s1.Inodes.contains e.ino then .ok s1
    else .ok { s1 with Inodes := e.ino :: s1.Inodes,
                       pathlist := s1.pathlist ++ [e.path] }

/-- `filepath.Walk`: fold `process` over the entries in walk order,
stopping at the first abort. -/
def processList : List Entry → CState → Except WalkAbort CState
  | [], s => .ok s
  | e :: rest, s =>
    match processEntry s e with
    | .error a => .error a
    | .ok s1 => processList rest s1

/-! ## The checksum engine (`checksum`) -/

/-- I/O behaviour of one path during hashing: whether `os.Open` succeeds,
whether `io.Copy` into the hash succeeds, and the hex digest obtained when
both do. -/
structure FileBeh where
  openOk : Bool
  readOk : Bool
  digest : String
deriving DecidableEq, Repr

/-- The disk as the checksum stage sees it. -/
def Disk : Type := String → FileBeh

/-- Checksum-stage state: the shared bucket map `ti.Sums` and the number
of progress-bar ticks issued by `ti.pb.Add(1)`. -/
structure HState where
  Sums : List (String × List String)
  progress : Nat
deriving DecidableEq, Repr

/-- `ti.Sums[s] = append(ti.Sums[s], path)` on an association list. -/
def addSum : List (String × List String) → String → String →
    List (String × List String)
  | [], d, p => [(d, [p])]
  | (d1, ps) :: rest, d, p =>
    if d1 == d then (d1, ps ++ [p]) :: rest else (d1, ps) :: addSum rest d p

/-- Body of the worker loop in `checksum` for one path: skip on open
failure; `blake2b.New256(nil)` failure panics (`hashOk = false` models
it); skip on read failure; otherwise bucket the digest and tick the
progress bar. -/
def checksumFile (hashOk : Bool) (disk : Disk) (st : HState) (path : String) :
    Except Unit HState :=
  let f := disk path
  if !f.openOk then .ok st
  else if !hashOk then .error ()
  else if !f.readOk then .ok st
  else .ok ⟨addSum st.Sums f.digest path, st.progress + 1⟩

/-- The checksum stage over the candidate list in dispatch order. -/
def checksumList (hashOk : Bool) (disk : Disk) :
    HState → List String → Except Unit HState
  | st, [] => .ok st
  | st, p :: rest =>
    match checksumFile hashOk disk st p with
    | .error e => .error e
    | .ok st1 => checksumList hashOk disk st1 rest

/-! ## The whole run (`doD2hl`) -/

/-- Fatal outcomes of a run, by stage. -/
inductive RunErr where
  | walkFail (a : WalkAbort)
  | hashInitFail
  | mergeFail (e : DedupeErr)
deriving DecidableEq, Repr

/-- Results of a completed run. -/
structure RunResult where
  collected : CState
  hashed : HState
  merged : DedupeResult
deriving DecidableEq, Repr

/-- `doD2hl`: walk, then checksum the candidate list, then merge the
buckets.  Each stage runs only if the previous one did not abort. -/
def doD2hl (hashOk dry : Bool) (disk : Disk) (fs : FS) (entries : List Entry) :
    Except RunErr RunResult :=
  match processList entries ⟨0, [], []⟩ with
  | .error a => .error (.walkFail a)
  | .ok cs =>
    match checksumList hashOk disk ⟨[], 0⟩ cs.pathlist with
    | .error _ => .error .hashInitFail
    | .ok hs =>
      match dedupe dry hs.Sums fs with
      | .error e => .error (.mergeFail e)
      | .ok r => .ok ⟨cs, hs, r⟩

/-! ## Decidable equality for `Except` results (used only to evaluate
concrete runs in witnesses) -/

instance instDecEqExcept {ε α : Type} [DecidableEq ε] [DecidableEq α] :
    DecidableEq (Except ε α) := fun x y =>
  match x, y with
  | .ok a, .ok b =>
    if h : a = b then .isTrue (by rw [h])
    else .isFalse (fun hc => h (Except.ok.inj hc))
  | .error a, .error b =>
    if h : a = b then .isTrue (by rw [h])
    else .isFalse (fun hc => h (Except.error.inj hc))
  | .ok _, .error _ => .isFalse (fun hc => Except.noConfusion hc)
  | .error _, .ok _ => .isFalse (fun hc => Except.noConfusion hc)

/-! ## Spec-side expected values

These definitions follow the wording of the spec (§4.3, §8 of the design
document) and are compared with the embedded code above: the three-step
crash-safer replace per non-canonical path, the savings/duplicate
accounting per bucket, and every path of every bucket. -/

/-- The three-step sequence the spec prescribes for one non-canonical path: rename to
the reserved temp name, link the canonical file to the original path,
remove the temp name. -/
def expectedOps (first name : String) : List FsOp :=
  [.rename name (name ++ tmpSuffix), .link first name,
   .remove (name ++ tmpSuffix)]

/-- Mutations the spec prescribes for one bucket: nothing for buckets of
fewer than two paths, else the three-step sequence for each non-canonical
path in order. -/
def bucketTrace : List String → List FsOp
  | [] => []
  | [_] => []
  | first :: others => others.flatMap (expectedOps first)

/-- Mutations the spec prescribes for a whole run, bucket by bucket. -/
def expectedTrace (buckets : List (String × List String)) : List FsOp :=
  buckets.flatMap (fun b => bucketTrace b.2)

/-- Savings the spec prescribes for one bucket: the canonical (first)
size of the file times the number of non-canonical paths. -/
def bucketSavings (fs : FS) : List String → Int
  | [] => 0
  | [_] => 0
  | first :: others => ((fs.statSize first).getD 0) * others.length

/-- `bytesSaved` the spec prescribes: summed over all buckets, sizes read
from the given filesystem. -/
def expectedSavings (fs : FS) (buckets : List (String × List String)) : Int :=
  (buckets.map (fun b => bucketSavings fs b.2)).sum

/-- Non-canonical path count of one bucket. -/
def bucketDupes : List String → Nat
  | [] => 0
  | [_] => 0
  | _ :: others => others.length

/-- `duplicatesCollapsed` the spec prescribes. -/
def expectedDupes (buckets : List (String × List String)) : Nat :=
  (buckets.map (fun b => bucketDupes b.2)).sum

/-- Every path of every bucket, in bucket order. -/
def allPaths (buckets : List (String × List String)) : List String :=
  buckets.flatMap (fun b => b.2)

/-- The entries `process` selects for the candidate list: regular,
error-free, unsuffixed, stat-bearing entries whose inode has not been
seen, threading the seen-inode set exactly as `process` does. -/
def selEntries : List Ino → List Entry → List Entry
  | _, [] => []
  | seen, e :: rest =>
    if !e.walkErr && e.isRegular && !hasSuffixStr e.path tmpSuffix &&
        e.hasStat && !seen.contains e.ino
    then e :: selEntries (e.ino :: seen) rest
    else selEntries seen rest

/-- State of the spec-side device-aware collector: recorded
device+inode identities and the collected candidate paths. -/
structure DevState where
  seenIds : List (Nat × Ino)
  pathlist : List String
deriving DecidableEq, Repr

/-- Follows the wording of the spec (§4.1 step 6): resolve the unique
on-disk identity as the device+inode pair; if that identity was already
recorded in this run, skip; otherwise record it and append the path to
the candidate sequence.  Stated for entries that pass the earlier
filters; used only to compare the claimed behaviour with the embedded
`process`. -/
def collectDevIno : List Entry → DevState → DevState
  | [], s => s
  | e :: rest, s =>
    if s.seenIds.contains (e.dev, e.ino) then collectDevIno rest s
    else collectDevIno rest ⟨(e.dev, e.ino) :: s.seenIds, s.pathlist ++ [e.path]⟩

/-- Every path of every bucket of a `Sums` map. -/
def sumPaths (sums : List (String × List String)) : List String :=
  sums.flatMap (fun b => b.2)

/-! ## Lemmas: filesystem operations touch only the named paths -/

theorem lookup_delEntry {l : List (String × Ino)} {p q : String} (h : p ≠ q) :
    (delEntry l q).lookup p = l.lookup p := by
  induction l with
  | nil => rfl
  | cons e rest ih =>
    obtain ⟨k, v⟩ := e
    by_cases hk : k = q
    · have hpk : (p == k) = false := beq_eq_false_iff_ne.mpr (hk ▸ h)
      simp only [delEntry, if_pos hk, List.lookup, hpk]
      exact ih
    · simp only [delEntry, if_neg hk, List.lookup]
      cases hpk : p == k with
      | true => rfl
      | false => exact ih

theorem statSize_rename {fs fs1 : FS} {src dst p : String}
    (h : fs.rename src dst = some fs1) (h1 : p ≠ src) (h2 : p ≠ dst) :
    fs1.statSize p = fs.statSize p := by
  unfold FS.rename at h
  cases hl : fs.dir.lookup src with
  | none => rw [hl] at h; exact absurd h (by simp)
  | some i =>
    rw [hl] at h
    injection h with h
    subst h
    have hpd : (p == dst) = false := beq_eq_false_iff_ne.mpr h2
    simp only [FS.statSize, List.lookup, hpd]
    rw [lookup_delEntry h2, lookup_delEntry h1]

theorem statSize_link {fs fs1 : FS} {old nw p : String}
    (h : fs.link old nw = some fs1) (h2 : p ≠ nw) :
    fs1.statSize p = fs.statSize p := by
  unfold FS.link at h
  cases hl : fs.dir.lookup old with
  | none => rw [hl] at h; exact absurd h (by simp)
  | some i =>
    rw [hl] at h
    cases hn : fs.dir.lookup nw with
    | some j => rw [hn] at h; exact absurd h (by simp)
    | none =>
      rw [hn] at h
      injection h with h
      subst h
      have hpn : (p == nw) = false := beq_eq_false_iff_ne.mpr h2
      simp only [FS.statSize, List.lookup, hpn]

theorem statSize_remove {fs fs1 : FS} {q p : String}
    (h : fs.remove q = some fs1) (h1 : p ≠ q) :
    fs1.statSize p = fs.statSize p := by
  unfold FS.remove at h
  cases hl : fs.dir.lookup q with
  | none => rw [hl] at h; exact absurd h (by simp)
  | some i =>
    rw [hl] at h
    injection h with h
    subst h
    simp only [FS.statSize]
    rw [lookup_delEntry h1]

/-! ## Lemmas: the inner merge loop -/

/-- In dry-run mode the inner loop never fails, never touches the
filesystem or the trace, and accumulates exactly `size` per path and one
duplicate per path. -/
theorem dedupeNames_dry (first : String) (size : Int) :
    ∀ (names : List String) (fs : FS) (sv : Int) (dc : Nat) (tr : List FsOp),
      dedupeNames true first size names fs sv dc tr =
        .ok (fs, sv + size * names.length, dc + names.length, tr) := by
  intro names
  induction names with
  | nil => intro fs sv dc tr; simp [dedupeNames]
  | cons name rest ih =>
    intro fs sv dc tr
    have harith : sv + size + size * (rest.length : Int) =
        sv + size * ((rest.length : Int) + 1) := by ring
    simp only [dedupeNames, if_pos rfl, ih, List.length_cons]
    push_cast
    rw [harith]
    have : dc + 1 + rest.length = dc + (rest.length + 1) := by omega
    rw [this]

/-- In a real run, a successful inner loop accumulates exactly `size` and
one duplicate per path, appends the three-step sequence per path to the
trace in order, and leaves every path other than the processed names and
their temp names with its original stat. -/
theorem dedupeNames_ok (first : String) (size : Int) :
    ∀ (names : List String) (fs : FS) (sv : Int) (dc : Nat) (tr : List FsOp)
      (fs1 : FS) (sv1 : Int) (dc1 : Nat) (tr1 : List FsOp),
      dedupeNames false first size names fs sv dc tr = .ok (fs1, sv1, dc1, tr1) →
      sv1 = sv + size * names.length ∧ dc1 = dc + names.length ∧
      tr1 = tr ++ names.flatMap (expectedOps first) ∧
      ∀ p, p ∉ names → (∀ n ∈ names, p ≠ n ++ tmpSuffix) →
        fs1.statSize p = fs.statSize p := by
  intro names
  induction names with
  | nil =>
    intro fs sv dc tr fs1 sv1 dc1 tr1 h
    simp only [dedupeNames, Except.ok.injEq, Prod.mk.injEq] at h
    obtain ⟨rfl, rfl, rfl, rfl⟩ := h
    simp
  | cons name rest ih =>
    intro fs sv dc tr fs1 sv1 dc1 tr1 h
    simp only [dedupeNames, Bool.false_eq_true, if_false] at h
    split at h
    next hr => exact absurd h (by simp)
    next fsa hr =>
      split at h
      next hl => exact absurd h (by simp)
      next fsb hl =>
        split at h
        next hm => exact absurd h (by simp)
        next fsc hm =>
          obtain ⟨h1, h2, h3, h4⟩ :=
            ih fsc (sv + size) (dc + 1)
              (tr ++ [.rename name (name ++ tmpSuffix), .link first name,
                      .remove (name ++ tmpSuffix)]) fs1 sv1 dc1 tr1 h
          refine ⟨?_, ?_, ?_, ?_⟩
          · rw [h1]; push_cast [List.length_cons]; ring
          · rw [h2]; simp only [List.length_cons]; omega
          · rw [h3]
            simp [expectedOps, List.flatMap_cons, List.append_assoc]
          · intro p hp hptmp
            have hpname : p ≠ name := fun hh => hp (by simp [hh])
            have hptmp1 : p ≠ name ++ tmpSuffix := hptmp name (by simp)
            rw [h4 p (fun hh => hp (List.mem_cons_of_mem _ hh))
                  (fun n hn => hptmp n (List.mem_cons_of_mem _ hn))]
            rw [statSize_remove hm hptmp1, statSize_link hl hpname,
                statSize_rename hr hpname hptmp1]

/-! ## Lemmas: the bucket loop -/

/-- `allPaths` unfolds bucket by bucket. -/
theorem allPaths_cons (b : String × List String)
    (rest : List (String × List String)) :
    allPaths (b :: rest) = b.2 ++ allPaths rest := by
  simp [allPaths]

/-- Expected savings only read the stat of paths inside the buckets. -/
theorem expectedSavings_congr {fs1 fs2 : FS} :
    ∀ (buckets : List (String × List String)),
      (∀ p ∈ allPaths buckets, fs1.statSize p = fs2.statSize p) →
      expectedSavings fs1 buckets = expectedSavings fs2 buckets := by
  intro buckets
  induction buckets with
  | nil => intro _; rfl
  | cons b rest ih =>
    intro hp
    have hrest : ∀ p ∈ allPaths rest, fs1.statSize p = fs2.statSize p := by
      intro p hmem
      refine hp p ?_
      rw [allPaths_cons]
      exact List.mem_append_right _ hmem
    have hb : bucketSavings fs1 b.2 = bucketSavings fs2 b.2 := by
      obtain ⟨s, names⟩ := b
      match names with
      | [] => rfl
      | [_] => rfl
      | first :: o :: os =>
        have hfirst : fs1.statSize first = fs2.statSize first := by
          refine hp first ?_
          rw [allPaths_cons]
          exact List.mem_append_left _ (by simp)
        simp [bucketSavings, hfirst]
    have hr : expectedSavings fs1 rest = expectedSavings fs2 rest := ih hrest
    simp only [expectedSavings, List.map_cons, List.sum_cons]
    simp only [expectedSavings] at hr
    rw [hb, hr]

/-- In dry-run mode the bucket loop leaves the filesystem and trace
untouched and reports exactly the expected savings and duplicate count. -/
theorem dedupeBuckets_dry :
    ∀ (buckets : List (String × List String)) (fs : FS) (sv : Int) (dc pb : Nat)
      (tr : List FsOp) (r : DedupeResult),
      dedupeBuckets true buckets fs sv dc pb tr = .ok r →
      r.fs = fs ∧ r.trace = tr ∧
      r.savings = sv + expectedSavings fs buckets ∧
      r.DupeCount = dc + expectedDupes buckets := by
  intro buckets
  induction buckets with
  | nil =>
    intro fs sv dc pb tr r h
    simp only [dedupeBuckets, Except.ok.injEq] at h
    subst h
    simp [expectedSavings, expectedDupes]
  | cons b rest ih =>
    intro fs sv dc pb tr r h
    obtain ⟨s, names⟩ := b
    match names with
    | [] =>
      simp only [dedupeBuckets] at h
      obtain ⟨h1, h2, h3, h4⟩ := ih fs sv dc (pb + 1) tr r h
      refine ⟨h1, h2, ?_, ?_⟩ <;>
        simp [h3, h4, expectedSavings, expectedDupes, bucketSavings, bucketDupes]
    | [x] =>
      simp only [dedupeBuckets] at h
      obtain ⟨h1, h2, h3, h4⟩ := ih fs sv dc (pb + 1) tr r h
      refine ⟨h1, h2, ?_, ?_⟩ <;>
        simp [h3, h4, expectedSavings, expectedDupes, bucketSavings, bucketDupes]
    | first :: o :: os =>
      simp only [dedupeBuckets] at h
      split at h
      next hs => exact absurd h (by simp)
      next size hs =>
        rw [dedupeNames_dry first size (o :: os) fs sv dc tr] at h
        obtain ⟨h1, h2, h3, h4⟩ := ih fs (sv + size * (o :: os).length)
          (dc + (o :: os).length) (pb + 1) tr r h
        refine ⟨h1, h2, ?_, ?_⟩
        · rw [h3]
          simp only [expectedSavings, List.map_cons, List.sum_cons,
            bucketSavings, hs, Option.getD_some]
          ring
        · rw [h4]
          simp only [expectedDupes, List.map_cons, List.sum_cons, bucketDupes]
          omega

/-- In a real run whose bucket paths are pairwise distinct and never of
the form `q ++ ".tmpdedupe"` for another bucket path `q`, a successful
bucket loop reports the expected savings and duplicate count (sizes read
from the starting filesystem) and performs exactly the expected
mutation trace. -/
theorem dedupeBuckets_ok :
    ∀ (buckets : List (String × List String)) (fs : FS) (sv : Int) (dc pb : Nat)
      (tr : List FsOp) (r : DedupeResult),
      (allPaths buckets).Nodup →
      (∀ p ∈ allPaths buckets, ∀ q ∈ allPaths buckets, p ≠ q ++ tmpSuffix) →
      dedupeBuckets false buckets fs sv dc pb tr = .ok r →
      r.savings = sv + expectedSavings fs buckets ∧
      r.DupeCount = dc + expectedDupes buckets ∧
      r.trace = tr ++ expectedTrace buckets := by
  intro buckets
  induction buckets with
  | nil =>
    intro fs sv dc pb tr r _ _ h
    simp only [dedupeBuckets, Except.ok.injEq] at h
    subst h
    simp [expectedSavings, expectedDupes, expectedTrace]
  | cons b rest ih =>
    intro fs sv dc pb tr r hnd htmp h
    obtain ⟨s, names⟩ := b
    have hndr : (allPaths rest).Nodup := by
      rw [allPaths_cons] at hnd
      exact (List.nodup_append.mp hnd).2.1
    have htmpr : ∀ p ∈ allPaths rest, ∀ q ∈ allPaths rest, p ≠ q ++ tmpSuffix := by
      intro p hpm q hqm
      refine htmp p ?_ q ?_ <;> rw [allPaths_cons] <;>
        exact List.mem_append_right _ (by assumption)
    match names with
    | [] =>
      simp only [dedupeBuckets] at h
      obtain ⟨h1, h2, h3⟩ := ih fs sv dc (pb + 1) tr r hndr htmpr h
      refine ⟨?_, ?_, ?_⟩ <;>
        simp [h1, h2, h3, expectedSavings, expectedDupes, expectedTrace,
          bucketSavings, bucketDupes, bucketTrace]
    | [x] =>
      simp only [dedupeBuckets] at h
      obtain ⟨h1, h2, h3⟩ := ih fs sv dc (pb + 1) tr r hndr htmpr h
      refine ⟨?_, ?_, ?_⟩ <;>
        simp [h1, h2, h3, expectedSavings, expectedDupes, expectedTrace,
          bucketSavings, bucketDupes, bucketTrace]
    | first :: o :: os =>
      simp only [dedupeBuckets] at h
      split at h
      next hs => exact absurd h (by simp)
      next size hs =>
        split at h
        next he => exact absurd h (by simp)
        next fs1 sv1 dc1 tr1 hnn =>
          obtain ⟨hn1, hn2, hn3, hn4⟩ :=
            dedupeNames_ok first size (o :: os) fs sv dc tr fs1 sv1 dc1 tr1 hnn
          obtain ⟨h1, h2, h3⟩ := ih fs1 sv1 dc1 (pb + 1) tr1 r hndr htmpr h
          have hdisj : (first :: o :: os).Disjoint (allPaths rest) := by
            rw [allPaths_cons] at hnd
            exact (List.nodup_append.mp hnd).2.2
          have hpres : ∀ p ∈ allPaths rest, fs1.statSize p = fs.statSize p := by
            intro p hpm
            refine hn4 p ?_ ?_
            · intro hmem
              exact hdisj (List.mem_cons_of_mem _ hmem) hpm
            · intro n hn
              refine htmp p ?_ n ?_
              · rw [allPaths_cons]; exact List.mem_append_right _ hpm
              · rw [allPaths_cons]
                exact List.mem_append_left _ (List.mem_cons_of_mem _ hn)
          have hsv : expectedSavings fs1 rest = expectedSavings fs rest :=
            expectedSavings_congr rest hpres
          refine ⟨?_, ?_, ?_⟩
          · rw [h1, hsv, hn1]
            simp only [expectedSavings, List.map_cons, List.sum_cons,
              bucketSavings, hs, Option.getD_some]
            ring
          · rw [h2, hn2]
            simp only [expectedDupes, List.map_cons, List.sum_cons, bucketDupes]
            omega
          · rw [h3, hn3]
            simp only [expectedTrace, List.flatMap_cons, bucketTrace,
              List.append_assoc]

/-- Unconditionally, a successful real-run bucket loop performs exactly
the expected mutation trace. -/
theorem dedupeBuckets_trace :
    ∀ (buckets : List (String × List String)) (fs : FS) (sv : Int) (dc pb : Nat)
      (tr : List FsOp) (r : DedupeResult),
      dedupeBuckets false buckets fs sv dc pb tr = .ok r →
      r.trace = tr ++ expectedTrace buckets := by
  intro buckets
  induction buckets with
  | nil =>
    intro fs sv dc pb tr r h
    simp only [dedupeBuckets, Except.ok.injEq] at h
    subst h
    simp [expectedTrace]
  | cons b rest ih =>
    intro fs sv dc pb tr r h
    obtain ⟨s, names⟩ := b
    match names with
    | [] =>
      simp only [dedupeBuckets] at h
      have h3 := ih fs sv dc (pb + 1) tr r h
      simp [h3, expectedTrace, bucketTrace]
    | [x] =>
      simp only [dedupeBuckets] at h
      have h3 := ih fs sv dc (pb + 1) tr r h
      simp [h3, expectedTrace, bucketTrace]
    | first :: o :: os =>
      simp only [dedupeBuckets] at h
      split at h
      next hs => exact absurd h (by simp)
      next size hs =>
        split at h
        next he => exact absurd h (by simp)
        next fs1 sv1 dc1 tr1 hnn =>
          obtain ⟨_, _, hn3, _⟩ :=
            dedupeNames_ok first size (o :: os) fs sv dc tr fs1 sv1 dc1 tr1 hnn
          have h3 := ih fs1 sv1 dc1 (pb + 1) tr1 r h
          rw [h3, hn3]
          simp only [expectedTrace, List.flatMap_cons, bucketTrace,
            List.append_assoc]

/-! ## Claims C1, C2, C3: the merge engine -/

/-- C1: with dry-run disabled, a run of the merge engine processes each
non-canonical path of each bucket with at least two paths by exactly the
three-step sequence rename → link → remove, in order (the performed
mutation trace equals the expected trace of the spec); and each of the three
steps, when it fails, terminates the run with the fatal error naming the
paths involved. -/
theorem C1_three_step_replace :
    (∀ (buckets : List (String × List String)) (fs : FS) (r : DedupeResult),
        dedupe false buckets fs = .ok r → r.trace = expectedTrace buckets) ∧
    (∀ (first name : String) (size : Int) (rest : List String) (fs : FS)
        (sv : Int) (dc : Nat) (tr : List FsOp),
      (fs.rename name (name ++ tmpSuffix) = none →
        dedupeNames false first size (name :: rest) fs sv dc tr =
          .error (.renameFail name (name ++ tmpSuffix))) ∧
      (∀ fs1, fs.rename name (name ++ tmpSuffix) = some fs1 →
        fs1.link first name = none →
        dedupeNames false first size (name :: rest) fs sv dc tr =
          .error (.linkFail name first)) ∧
      (∀ fs1 fs2, fs.rename name (name ++ tmpSuffix) = some fs1 →
        fs1.link first name = some fs2 →
        fs2.remove (name ++ tmpSuffix) = none →
        dedupeNames false first size (name :: rest) fs sv dc tr =
          .error (.removeFail (name ++ tmpSuffix)))) := by
  constructor
  · intro buckets fs r h
    have := dedupeBuckets_trace buckets fs 0 0 0 [] r h
    simpa using this
  · intro first name size rest fs sv dc tr
    refine ⟨?_, ?_, ?_⟩
    · intro hr
      simp [dedupeNames, hr]
    · intro fs1 hr hl
      simp [dedupeNames, hr, hl]
    · intro fs1 fs2 hr hl hm
      simp [dedupeNames, hr, hl, hm]

/-- Witness for C1: a concrete two-path bucket is merged by exactly
rename → link → remove, and a rename failure on an empty filesystem is
reported fatally with both names. -/
theorem C1_three_step_replace_witness :
    (dedupe false [("h1", ["a", "b"]), ("h2", ["c"])]
        ⟨[("a", 1), ("b", 2), ("c", 3)], [(1, 4), (2, 4), (3, 7)]⟩ =
      .ok ⟨⟨[("b", 1), ("a", 1), ("c", 3)], [(1, 4), (2, 4), (3, 7)]⟩, 4, 1, 2,
        [.rename "b" "b.tmpdedupe", .link "a" "b", .remove "b.tmpdedupe"]⟩ ∧
      ([FsOp.rename "b" "b.tmpdedupe", .link "a" "b", .remove "b.tmpdedupe"] :
          List FsOp) =
        expectedTrace [("h1", ["a", "b"]), ("h2", ["c"])]) ∧
    ((FS.mk [] []).rename "b" "b.tmpdedupe" = none ∧
      dedupeNames false "a" 4 ["b"] ⟨[], []⟩ 0 0 [] =
        .error (.renameFail "b" "b.tmpdedupe")) :=
  ⟨⟨by decide,
    C1_three_step_replace.1 [("h1", ["a", "b"]), ("h2", ["c"])]
      ⟨[("a", 1), ("b", 2), ("c", 3)], [(1, 4), (2, 4), (3, 7)]⟩
      ⟨⟨[("b", 1), ("a", 1), ("c", 3)], [(1, 4), (2, 4), (3, 7)]⟩, 4, 1, 2,
        [.rename "b" "b.tmpdedupe", .link "a" "b", .remove "b.tmpdedupe"]⟩
      (by decide)⟩,
   ⟨by decide,
    (C1_three_step_replace.2 "a" "b" 4 [] ⟨[], []⟩ 0 0 []).1 (by decide)⟩⟩

/-- C2: for every successful run of the merge engine over buckets whose
paths are pairwise distinct and free of the reserved suffix collision (as
traversal guarantees), the returned savings equal the sum over buckets
with at least two paths of the size of the canonical file times the number of
non-canonical paths, and `DupeCount` equals the total number of
non-canonical paths — identically for dry-run and real mode. -/
theorem C2_savings_accounting (dry : Bool)
    (buckets : List (String × List String)) (fs : FS) (r : DedupeResult)
    (hnd : (allPaths buckets).Nodup)
    (htmp : ∀ p ∈ allPaths buckets, ∀ q ∈ allPaths buckets, p ≠ q ++ tmpSuffix)
    (h : dedupe dry buckets fs = .ok r) :
    r.savings = expectedSavings fs buckets ∧
    r.DupeCount = expectedDupes buckets := by
  cases dry with
  | true =>
    obtain ⟨_, _, h3, h4⟩ :=
      dedupeBuckets_dry buckets fs 0 0 0 [] r h
    exact ⟨by simpa using h3, by simpa using h4⟩
  | false =>
    obtain ⟨h1, h2, _⟩ :=
      dedupeBuckets_ok buckets fs 0 0 0 [] r hnd htmp h
    exact ⟨by simpa using h1, by simpa using h2⟩

/-- Witness for C2: concrete buckets, real mode; savings 4 and one
duplicate. -/
theorem C2_savings_accounting_witness :
    ((allPaths [("h1", ["a", "b"]), ("h2", ["c"])]).Nodup ∧
      (∀ p ∈ allPaths [("h1", ["a", "b"]), ("h2", ["c"])],
        ∀ q ∈ allPaths [("h1", ["a", "b"]), ("h2", ["c"])],
          p ≠ q ++ tmpSuffix) ∧
      dedupe false [("h1", ["a", "b"]), ("h2", ["c"])]
          ⟨[("a", 1), ("b", 2), ("c", 3)], [(1, 4), (2, 4), (3, 7)]⟩ =
        .ok ⟨⟨[("b", 1), ("a", 1), ("c", 3)], [(1, 4), (2, 4), (3, 7)]⟩, 4, 1, 2,
          [.rename "b" "b.tmpdedupe", .link "a" "b", .remove "b.tmpdedupe"]⟩) ∧
    ((4 : Int) = expectedSavings
        ⟨[("a", 1), ("b", 2), ("c", 3)], [(1, 4), (2, 4), (3, 7)]⟩
        [("h1", ["a", "b"]), ("h2", ["c"])] ∧
      1 = expectedDupes [("h1", ["a", "b"]), ("h2", ["c"])]) :=
  ⟨⟨by decide, by decide, by decide⟩,
   C2_savings_accounting false [("h1", ["a", "b"]), ("h2", ["c"])]
     ⟨[("a", 1), ("b", 2), ("c", 3)], [(1, 4), (2, 4), (3, 7)]⟩
     ⟨⟨[("b", 1), ("a", 1), ("c", 3)], [(1, 4), (2, 4), (3, 7)]⟩, 4, 1, 2,
       [.rename "b" "b.tmpdedupe", .link "a" "b", .remove "b.tmpdedupe"]⟩
     (by decide) (by decide) (by decide)⟩

/-- C3: with dry-run enabled the merge engine mutates nothing (the
filesystem comes back unchanged and the mutation trace is empty), while
the reported savings and duplicate count equal those of a successful real
run over the same buckets (under the path-distinctness
guarantees). -/
theorem C3_dryrun_noop (buckets : List (String × List String)) (fs : FS)
    (r1 : DedupeResult) (h1 : dedupe true buckets fs = .ok r1) :
    (r1.fs = fs ∧ r1.trace = []) ∧
    ∀ (r2 : DedupeResult),
      (allPaths buckets).Nodup →
      (∀ p ∈ allPaths buckets, ∀ q ∈ allPaths buckets, p ≠ q ++ tmpSuffix) →
      dedupe false buckets fs = .ok r2 →
      r1.savings = r2.savings ∧ r1.DupeCount = r2.DupeCount := by
  obtain ⟨hfs, htr, hsv, hdc⟩ := dedupeBuckets_dry buckets fs 0 0 0 [] r1 h1
  refine ⟨⟨hfs, htr⟩, ?_⟩
  intro r2 hnd htmp h2
  obtain ⟨hsv2, hdc2, _⟩ := dedupeBuckets_ok buckets fs 0 0 0 [] r2 hnd htmp h2
  rw [hsv, hdc, hsv2, hdc2]
  exact ⟨rfl, rfl⟩

/-- Witness for C3: on the concrete example the dry run leaves the
filesystem untouched and reports the same numbers as the real run. -/
theorem C3_dryrun_noop_witness :
    (dedupe true [("h1", ["a", "b"]), ("h2", ["c"])]
        ⟨[("a", 1), ("b", 2), ("c", 3)], [(1, 4), (2, 4), (3, 7)]⟩ =
      .ok ⟨⟨[("a", 1), ("b", 2), ("c", 3)], [(1, 4), (2, 4), (3, 7)]⟩, 4, 1, 2,
        []⟩ ∧
      dedupe false [("h1", ["a", "b"]), ("h2", ["c"])]
          ⟨[("a", 1), ("b", 2), ("c", 3)], [(1, 4), (2, 4), (3, 7)]⟩ =
        .ok ⟨⟨[("b", 1), ("a", 1), ("c", 3)], [(1, 4), (2, 4), (3, 7)]⟩, 4, 1, 2,
          [.rename "b" "b.tmpdedupe", .link "a" "b", .remove "b.tmpdedupe"]⟩) ∧
    ((⟨⟨[("a", 1), ("b", 2), ("c", 3)], [(1, 4), (2, 4), (3, 7)]⟩, 4, 1, 2,
        []⟩ : DedupeResult).fs =
        ⟨[("a", 1), ("b", 2), ("c", 3)], [(1, 4), (2, 4), (3, 7)]⟩ ∧
      (⟨⟨[("a", 1), ("b", 2), ("c", 3)], [(1, 4), (2, 4), (3, 7)]⟩, 4, 1, 2,
        []⟩ : DedupeResult).trace = []) ∧
    ((4 : Int) = (4 : Int) ∧ (1 : Nat) = 1) :=
  ⟨⟨by decide, by decide⟩,
   (C3_dryrun_noop [("h1", ["a", "b"]), ("h2", ["c"])]
      ⟨[("a", 1), ("b", 2), ("c", 3)], [(1, 4), (2, 4), (3, 7)]⟩
      ⟨⟨[("a", 1), ("b", 2), ("c", 3)], [(1, 4), (2, 4), (3, 7)]⟩, 4, 1, 2, []⟩
      (by decide)).1,
   (C3_dryrun_noop [("h1", ["a", "b"]), ("h2", ["c"])]
      ⟨[("a", 1), ("b", 2), ("c", 3)], [(1, 4), (2, 4), (3, 7)]⟩
      ⟨⟨[("a", 1), ("b", 2), ("c", 3)], [(1, 4), (2, 4), (3, 7)]⟩, 4, 1, 2, []⟩
      (by decide)).2
     ⟨⟨[("b", 1), ("a", 1), ("c", 3)], [(1, 4), (2, 4), (3, 7)]⟩, 4, 1, 2,
       [.rename "b" "b.tmpdedupe", .link "a" "b", .remove "b.tmpdedupe"]⟩
     (by decide) (by decide) (by decide)⟩

/-! ## Lemmas: the inventory collector -/

/-- On success, the candidate list is the paths of the selected entries
in walk order appended to the initial list, and the inode set is the
selected inodes (newest first) on top of the initial set. -/
theorem processList_ok_shape :
    ∀ (entries : List Entry) (s0 s : CState),
      processList entries s0 = .ok s →
      s.pathlist = s0.pathlist ++ (selEntries s0.Inodes entries).map (·.path) ∧
      s.Inodes = ((selEntries s0.Inodes entries).map (·.ino)).reverse ++ s0.Inodes := by
  intro entries
  induction entries with
  | nil =>
    intro s0 s h
    simp only [processList, Except.ok.injEq] at h
    subst h
    simp [selEntries]
  | cons e rest ih =>
    intro s0 s h
    simp only [processList] at h
    by_cases hw : e.walkErr
    · simp [processEntry, hw] at h
    · by_cases hreg : e.isRegular
      · by_cases hsuf : hasSuffixStr e.path tmpSuffix = true
        · simp [processEntry, hw, hreg, hsuf] at h
        · by_cases hst : e.hasStat
          · by_cases hseen : s0.Inodes.contains e.ino
            · simp only [processEntry, hw, hreg, hsuf, hst, hseen,
                Bool.not_true, Bool.not_false, if_false, if_true,
                Bool.false_eq_true] at h
              obtain ⟨h1, h2⟩ := ih _ s h
              have hc : (!e.walkErr && e.isRegular &&
                  !hasSuffixStr e.path tmpSuffix && e.hasStat &&
                  !s0.Inodes.contains e.ino) = false := by
                rw [hseen]; simp
              rw [selEntries, hc]
              simp only [if_false, Bool.false_eq_true]
              exact ⟨h1, h2⟩
            · simp only [processEntry, hw, hreg, hsuf, hst, hseen,
                Bool.not_true, Bool.not_false, if_false, if_true,
                Bool.false_eq_true] at h
              obtain ⟨h1, h2⟩ := ih _ s h
              have hw0 : e.walkErr = false := by simpa using hw
              have hsuf0 : hasSuffixStr e.path tmpSuffix = false := by
                simpa using hsuf
              have hseen0 : s0.Inodes.contains e.ino = false := by
                simpa using hseen
              have hc : (!e.walkErr && e.isRegular &&
                  !hasSuffixStr e.path tmpSuffix && e.hasStat &&
                  !s0.Inodes.contains e.ino) = true := by
                rw [hw0, hreg, hsuf0, hst, hseen0]; rfl
              rw [selEntries, hc]
              simp only [if_true, List.map_cons, List.reverse_cons]
              constructor
              · rw [h1]
                simp [List.append_assoc]
              · rw [h2]
                simp [List.append_assoc]
          · simp [processEntry, hw, hreg, hsuf, hst] at h
      · simp only [processEntry, hw, hreg, Bool.not_false, Bool.not_true,
          if_true, if_false, Bool.false_eq_true] at h
        obtain ⟨h1, h2⟩ := ih _ s h
        have hreg0 : e.isRegular = false := by simpa using hreg
        have hc : (!e.walkErr && e.isRegular &&
            !hasSuffixStr e.path tmpSuffix && e.hasStat &&
            !s0.Inodes.contains e.ino) = false := by
          rw [hreg0]; simp
        rw [selEntries, hc]
        simp only [if_false, Bool.false_eq_true]
        exact ⟨h1, h2⟩

/-- A `false` result of `List.contains` means non-membership. -/
theorem not_mem_of_contains_eq_false {l : List Ino} {a : Ino}
    (h : l.contains a = false) : a ∉ l := by
  intro hm
  rw [List.contains, List.elem_eq_mem] at h
  simp [hm] at h

/-- Selected entries carry pairwise distinct inodes, none of them in the
starting seen-set. -/
theorem selEntries_ino_nodup :
    ∀ (entries : List Entry) (seen : List Ino),
      ((selEntries seen entries).map (·.ino)).Nodup ∧
      ∀ e ∈ selEntries seen entries, e.ino ∉ seen := by
  intro entries
  induction entries with
  | nil => intro seen; simp [selEntries]
  | cons e rest ih =>
    intro seen
    rw [selEntries]
    cases hc : (!e.walkErr && e.isRegular && !hasSuffixStr e.path tmpSuffix &&
        e.hasStat && !seen.contains e.ino) with
    | false =>
      simp only [if_false, Bool.false_eq_true]
      exact ih seen
    | true =>
      have hfresh : e.ino ∉ seen := by
        have hx : (!seen.contains e.ino) = true := by
          cases hx : (!seen.contains e.ino) with
          | true => rfl
          | false => rw [hx] at hc; simp at hc
        exact not_mem_of_contains_eq_false (Bool.not_eq_true' .. ▸ hx)
      simp only [if_true, List.map_cons]
      obtain ⟨ihnd, ihseen⟩ := ih (e.ino :: seen)
      refine ⟨List.nodup_cons.mpr ⟨?_, ihnd⟩, ?_⟩
      · intro hmem
        obtain ⟨f, hf, hfe⟩ := List.mem_map.mp hmem
        exact ihseen f hf (hfe ▸ List.mem_cons_self _ _)
      · intro f hf
        rcases List.mem_cons.mp hf with hfe | hfr
        · exact hfe ▸ hfresh
        · intro hmem
          exact ihseen f hfr (List.mem_cons_of_mem _ hmem)

/-- Selected entries come from the walked entries. -/
theorem selEntries_subset :
    ∀ (entries : List Entry) (seen : List Ino) (e : Entry),
      e ∈ selEntries seen entries → e ∈ entries := by
  intro entries
  induction entries with
  | nil => intro seen e h; simp [selEntries] at h
  | cons f rest ih =>
    intro seen e h
    rw [selEntries] at h
    cases hc : (!f.walkErr && f.isRegular && !hasSuffixStr f.path tmpSuffix &&
        f.hasStat && !seen.contains f.ino) with
    | false =>
      rw [hc] at h
      simp only [if_false, Bool.false_eq_true] at h
      exact List.mem_cons_of_mem _ (ih seen e h)
    | true =>
      rw [hc] at h
      simp only [if_true] at h
      rcases List.mem_cons.mp h with hfe | hfr
      · exact hfe ▸ List.mem_cons_self _ _
      · exact List.mem_cons_of_mem _ (ih _ e hfr)

/-- On success, `FileCount` grows by exactly the number of regular
entries walked. -/
theorem processList_ok_fileCount :
    ∀ (entries : List Entry) (s0 s : CState),
      processList entries s0 = .ok s →
      s.FileCount = s0.FileCount + (entries.filter (fun e => e.isRegular)).length := by
  intro entries
  induction entries with
  | nil =>
    intro s0 s h
    simp only [processList, Except.ok.injEq] at h
    subst h
    simp
  | cons e rest ih =>
    intro s0 s h
    simp only [processList] at h
    by_cases hw : e.walkErr
    · simp [processEntry, hw] at h
    · by_cases hreg : e.isRegular
      · by_cases hsuf : hasSuffixStr e.path tmpSuffix = true
        · simp [processEntry, hw, hreg, hsuf] at h
        · by_cases hst : e.hasStat
          · by_cases hseen : s0.Inodes.contains e.ino
            · simp only [processEntry, hw, hreg, hsuf, hst, hseen,
                Bool.not_true, Bool.not_false, if_false, if_true,
                Bool.false_eq_true] at h
              have := ih _ s h
              simp only [this, List.filter_cons, hreg, if_true]
              simp
              omega
            · simp only [processEntry, hw, hreg, hsuf, hst, hseen,
                Bool.not_true, Bool.not_false, if_false, if_true,
                Bool.false_eq_true] at h
              have := ih _ s h
              simp only [this, List.filter_cons, hreg, if_true]
              simp
              omega
          · simp [processEntry, hw, hreg, hsuf, hst] at h
      · simp only [processEntry, hw, hreg, Bool.not_false, Bool.not_true,
          if_true, if_false, Bool.false_eq_true] at h
        have hreg0 : e.isRegular = false := by simpa using hreg
        have := ih _ s h
        simp only [List.filter_cons, hreg0] at this ⊢
        simpa using this

/-- The candidate list never outgrows the number of selected entries. -/
theorem selEntries_length_le :
    ∀ (entries : List Entry) (seen : List Ino),
      (selEntries seen entries).length ≤
        (entries.filter (fun e => e.isRegular)).length := by
  intro entries
  induction entries with
  | nil => intro seen; simp [selEntries]
  | cons e rest ih =>
    intro seen
    rw [selEntries]
    cases hc : (!e.walkErr && e.isRegular && !hasSuffixStr e.path tmpSuffix &&
        e.hasStat && !seen.contains e.ino) with
    | false =>
      simp only [if_false, Bool.false_eq_true]
      refine le_trans (ih seen) ?_
      simp only [List.filter_cons]
      cases e.isRegular <;> simp
    | true =>
      have hreg : e.isRegular = true := by
        cases hx : e.isRegular with
        | true => rfl
        | false => rw [hx] at hc; simp at hc
      simp only [if_true, List.length_cons, List.filter_cons, hreg,
        if_true, List.length_cons]
      exact Nat.succ_le_succ (ih _)

/-- The walk over an appended list runs the first part, then the second
from the reached state. -/
theorem processList_append :
    ∀ (l1 l2 : List Entry) (s0 : CState),
      processList (l1 ++ l2) s0 =
        match processList l1 s0 with
        | .error a => .error a
        | .ok s1 => processList l2 s1 := by
  intro l1
  induction l1 with
  | nil => intro l2 s0; rfl
  | cons e rest ih =>
    intro l2 s0
    simp only [List.cons_append, processList]
    cases processEntry s0 e with
    | error a => rfl
    | ok s1 => exact ih l2 s1

/-- Membership in `contains` form. -/
theorem contains_eq_true_of_mem {l : List Ino} {a : Ino} (h : a ∈ l) :
    l.contains a = true := by
  rw [List.contains, List.elem_eq_mem]
  simpa using h

/-! ## Claims C4, C5, C7, C8, C10: the inventory collector -/

/-- C4: on a successful traversal with distinct entry paths, the recorded
inode set is duplicate-free; a regular entry whose inode is already
recorded is skipped (only `FileCount` moves); and two entries sharing an
inode never both reach the candidate list. -/
theorem C4_inode_dedup_invariant (entries : List Entry) (s : CState)
    (hok : processList entries ⟨0, [], []⟩ = .ok s)
    (hpaths : (entries.map (·.path)).Nodup) :
    s.Inodes.Nodup ∧
    (∀ e1 ∈ entries, ∀ e2 ∈ entries, e1.ino = e2.ino → e1.path ≠ e2.path →
      ¬(e1.path ∈ s.pathlist ∧ e2.path ∈ s.pathlist)) ∧
    (∀ (t : CState) (e : Entry), e.walkErr = false → e.isRegular = true →
      hasSuffixStr e.path tmpSuffix = false → e.hasStat = true →
      t.Inodes.contains e.ino = true →
      processEntry t e = .ok ⟨t.FileCount + 1, t.Inodes, t.pathlist⟩) := by
  obtain ⟨hpl, hin⟩ := processList_ok_shape entries ⟨0, [], []⟩ s hok
  simp only [List.nil_append, List.append_nil] at hpl hin
  obtain ⟨hnodup, _⟩ := selEntries_ino_nodup entries []
  refine ⟨?_, ?_, ?_⟩
  · rw [hin]
    exact List.nodup_reverse.mpr hnodup
  · intro e1 he1 e2 he2 hino hne hboth
    obtain ⟨hm1, hm2⟩ := hboth
    rw [hpl] at hm1 hm2
    obtain ⟨f1, hf1, hf1e⟩ := List.mem_map.mp hm1
    obtain ⟨f2, hf2, hf2e⟩ := List.mem_map.mp hm2
    have hf1mem : f1 ∈ entries := selEntries_subset entries [] f1 hf1
    have hf2mem : f2 ∈ entries := selEntries_subset entries [] f2 hf2
    have he1f1 : e1 = f1 :=
      List.inj_on_of_nodup_map hpaths he1 hf1mem (hf1e ▸ rfl)
    have he2f2 : e2 = f2 :=
      List.inj_on_of_nodup_map hpaths he2 hf2mem (hf2e ▸ rfl)
    have : f1 = f2 :=
      List.inj_on_of_nodup_map hnodup hf1 hf2
        (by rw [← he1f1, ← he2f2]; exact hino)
    exact hne (by rw [he1f1, he2f2, this])
  · intro t e hw hreg hsuf hst hcont
    have hmem : e.ino ∈ t.Inodes := by
      rw [List.contains, List.elem_eq_mem] at hcont
      simpa using hcont
    simp [processEntry, hw, hreg, hsuf, hst, hmem]

/-- Witness for C4: two regular entries sharing inode 5; only the first
path is queued and the inode set is `[5]`. -/
theorem C4_inode_dedup_invariant_witness :
    (processList [⟨"a", false, true, true, 0, 5⟩, ⟨"b", false, true, true, 0, 5⟩]
        ⟨0, [], []⟩ = .ok ⟨2, [5], ["a"]⟩ ∧
      ((["a", "b"] : List String)).Nodup) ∧
    ([5] : List Ino).Nodup :=
  ⟨⟨by decide, by decide⟩,
   (C4_inode_dedup_invariant
      [⟨"a", false, true, true, 0, 5⟩, ⟨"b", false, true, true, 0, 5⟩]
      ⟨2, [5], ["a"]⟩ (by decide) (by decide)).1⟩

/-- C5: a regular file carrying the reserved suffix, reached during
traversal, makes the whole run fail with the leftover-temp-file abort —
whatever the disk contents, hash behaviour, dry-run flag and merge-stage
filesystem, so no hashing or merging takes place. -/
theorem C5_leftover_tmp_aborts_run (pre post : List Entry) (e : Entry)
    (s : CState) (hpre : processList pre ⟨0, [], []⟩ = .ok s)
    (hw : e.walkErr = false) (hreg : e.isRegular = true)
    (hsuf : hasSuffixStr e.path tmpSuffix = true) :
    ∀ (hashOk dry : Bool) (disk : Disk) (fs : FS),
      doD2hl hashOk dry disk fs (pre ++ e :: post) =
        .error (.walkFail (.leftoverTmp e.path)) := by
  intro hashOk dry disk fs
  have hstep : processList (pre ++ e :: post) ⟨0, [], []⟩ =
      .error (.leftoverTmp e.path) := by
    rw [processList_append, hpre]
    simp [processList, processEntry, hw, hreg, hsuf]
  simp [doD2hl, hstep]

/-- Witness for C5: a single leftover `"x.tmpdedupe"` aborts the run. -/
theorem C5_leftover_tmp_aborts_run_witness :
    (processList [] ⟨0, [], []⟩ = .ok ⟨0, [], []⟩ ∧
      (⟨"x.tmpdedupe", false, true, true, 0, 1⟩ : Entry).walkErr = false ∧
      (⟨"x.tmpdedupe", false, true, true, 0, 1⟩ : Entry).isRegular = true ∧
      hasSuffixStr "x.tmpdedupe" tmpSuffix = true) ∧
    doD2hl true false (fun _ => ⟨true, true, "h"⟩) ⟨[], []⟩
        ([] ++ ⟨"x.tmpdedupe", false, true, true, 0, 1⟩ :: []) =
      .error (.walkFail (.leftoverTmp "x.tmpdedupe")) :=
  ⟨⟨by decide, by decide, by decide, by decide⟩,
   C5_leftover_tmp_aborts_run [] [] ⟨"x.tmpdedupe", false, true, true, 0, 1⟩
     ⟨0, [], []⟩ (by decide) (by decide) (by decide) (by decide)
     true false (fun _ => ⟨true, true, "h"⟩) ⟨[], []⟩⟩

/-- C7 counterexample: two regular files on different devices with the
same inode number.  Their device+inode identities differ, so the claimed
device+inode collector queues both paths, but `process` keys only on the
inode number and queues just the first — the claim is false on the code. -/
theorem C7_counterexample_device_ignored :
    processList [⟨"a", false, true, true, 0, 5⟩, ⟨"b", false, true, true, 1, 5⟩]
        ⟨0, [], []⟩ = .ok ⟨2, [5], ["a"]⟩ ∧
    collectDevIno
        [⟨"a", false, true, true, 0, 5⟩, ⟨"b", false, true, true, 1, 5⟩]
        ⟨[], []⟩ = ⟨[(1, 5), (0, 5)], ["a", "b"]⟩ ∧
    ((0, 5) : Nat × Ino) ≠ (1, 5) ∧
    (["a"] : List String) ≠ ["a", "b"] := by
  refine ⟨by decide, by decide, by decide, by decide⟩

/-- C7 (amended): the collector keys solely on the inode number — an
entry with a recorded inode is skipped even if its device differs, a
fresh inode is recorded and its path queued, and the device field never
affects the outcome. -/
theorem C7_identity_is_inode_only (t : CState) (e : Entry)
    (hw : e.walkErr = false) (hreg : e.isRegular = true)
    (hsuf : hasSuffixStr e.path tmpSuffix = false) (hst : e.hasStat = true) :
    (e.ino ∈ t.Inodes →
      processEntry t e = .ok ⟨t.FileCount + 1, t.Inodes, t.pathlist⟩) ∧
    (e.ino ∉ t.Inodes →
      processEntry t e =
        .ok ⟨t.FileCount + 1, e.ino :: t.Inodes, t.pathlist ++ [e.path]⟩) ∧
    (∀ d : Nat, processEntry t { e with dev := d } = processEntry t e) := by
  refine ⟨?_, ?_, ?_⟩
  · intro hmem
    simp [processEntry, hw, hreg, hsuf, hst, hmem]
  · intro hmem
    simp [processEntry, hw, hreg, hsuf, hst, hmem]
  · intro d
    simp [processEntry]

/-- Witness for C7 (amended): concrete fresh-inode entry gets queued. -/
theorem C7_identity_is_inode_only_witness :
    ((⟨"b", false, true, true, 7, 6⟩ : Entry).walkErr = false ∧
      (⟨"b", false, true, true, 7, 6⟩ : Entry).isRegular = true ∧
      hasSuffixStr "b" tmpSuffix = false ∧
      (⟨"b", false, true, true, 7, 6⟩ : Entry).hasStat = true ∧
      (6 : Ino) ∉ ([5] : List Ino)) ∧
    processEntry ⟨1, [5], ["a"]⟩ ⟨"b", false, true, true, 7, 6⟩ =
      .ok ⟨2, [6, 5], ["a", "b"]⟩ :=
  ⟨⟨by decide, by decide, by decide, by decide, by decide⟩,
   (C7_identity_is_inode_only ⟨1, [5], ["a"]⟩ ⟨"b", false, true, true, 7, 6⟩
      (by decide) (by decide) (by decide) (by decide)).2.1 (by decide)⟩

/-- C8: on a successful traversal, `FileCount` equals the number of
regular entries walked — files later dropped by inode dedup included —
and therefore bounds the candidate list length from above. -/
theorem C8_fileCount_counts_regular (entries : List Entry) (s : CState)
    (hok : processList entries ⟨0, [], []⟩ = .ok s) :
    s.FileCount = (entries.filter (fun e => e.isRegular)).length ∧
    s.pathlist.length ≤ s.FileCount := by
  have hfc := processList_ok_fileCount entries ⟨0, [], []⟩ s hok
  simp only [Nat.zero_add] at hfc
  refine ⟨hfc, ?_⟩
  obtain ⟨hpl, _⟩ := processList_ok_shape entries ⟨0, [], []⟩ s hok
  simp only [List.nil_append] at hpl
  rw [hpl, hfc, List.length_map]
  exact selEntries_length_le entries []

/-- Witness for C8: three entries — two regular sharing an inode, one
directory — give `FileCount` 2 and one queued path. -/
theorem C8_fileCount_counts_regular_witness :
    processList [⟨"a", false, true, true, 0, 5⟩, ⟨"b", false, true, true, 0, 5⟩,
        ⟨"d", false, false, true, 0, 9⟩] ⟨0, [], []⟩ = .ok ⟨2, [5], ["a"]⟩ ∧
    (2 = (([⟨"a", false, true, true, 0, 5⟩, ⟨"b", false, true, true, 0, 5⟩,
        ⟨"d", false, false, true, 0, 9⟩] : List Entry).filter
          (fun e => e.isRegular)).length ∧
      (["a"] : List String).length ≤ 2) :=
  ⟨by decide,
   C8_fileCount_counts_regular
     [⟨"a", false, true, true, 0, 5⟩, ⟨"b", false, true, true, 0, 5⟩,
      ⟨"d", false, false, true, 0, 9⟩] ⟨2, [5], ["a"]⟩ (by decide)⟩

/-- C10: a non-regular entry never aborts the run, whatever its name —
the regular-file check precedes the reserved-suffix check, so traversal
silently skips it and continues with the remaining entries unchanged. -/
theorem C10_nonregular_tmp_name_skipped (e : Entry) (rest : List Entry)
    (s : CState) (hw : e.walkErr = false) (hreg : e.isRegular = false) :
    processList (e :: rest) s = processList rest s := by
  simp [processList, processEntry, hw, hreg]

/-- Witness for C10: a directory named `"d.tmpdedupe"` is skipped and the
walk of the remaining entries proceeds from the same state. -/
theorem C10_nonregular_tmp_name_skipped_witness :
    ((⟨"d.tmpdedupe", false, false, true, 0, 3⟩ : Entry).walkErr = false ∧
      (⟨"d.tmpdedupe", false, false, true, 0, 3⟩ : Entry).isRegular = false ∧
      hasSuffixStr "d.tmpdedupe" tmpSuffix = true) ∧
    processList [⟨"d.tmpdedupe", false, false, true, 0, 3⟩] ⟨0, [], []⟩ =
      processList [] ⟨0, [], []⟩ :=
  ⟨⟨by decide, by decide, by decide⟩,
   C10_nonregular_tmp_name_skipped ⟨"d.tmpdedupe", false, false, true, 0, 3⟩
     [] ⟨0, [], []⟩ (by decide) (by decide)⟩

/-! ## Lemmas and claims C6, C9: the checksum engine -/

/-- `addSum` adds only the given path. -/
theorem mem_sumPaths_addSum :
    ∀ (sums : List (String × List String)) (d q p : String),
      p ∈ sumPaths (addSum sums d q) → p ∈ sumPaths sums ∨ p = q := by
  intro sums
  induction sums with
  | nil =>
    intro d q p h
    simp [sumPaths, addSum] at h
    exact Or.inr h
  | cons b rest ih =>
    intro d q p h
    obtain ⟨d1, ps⟩ := b
    by_cases hd : d1 == d
    · simp only [addSum, if_pos hd, sumPaths, List.flatMap_cons,
        List.mem_append] at h
      rcases h with h | h
      · rcases h with h | h
        · exact Or.inl (by simp [sumPaths, List.flatMap_cons]; exact Or.inl h)
        · exact Or.inr (by simpa using h)
      · exact Or.inl (by
          simp only [sumPaths, List.flatMap_cons, List.mem_append]
          exact Or.inr h)
    · simp only [addSum, if_neg hd, sumPaths, List.flatMap_cons,
        List.mem_append] at h
      rcases h with h | h
      · exact Or.inl (by
          simp only [sumPaths, List.flatMap_cons, List.mem_append]
          exact Or.inl h)
      · rcases ih d q p (by simpa [sumPaths] using h) with h1 | h1
        · exact Or.inl (by
            simp only [sumPaths, List.flatMap_cons, List.mem_append]
            exact Or.inr (by simpa [sumPaths] using h1))
        · exact Or.inr h1

/-- Any path found in a bucket after checksumming was in a bucket before
or is a dispatched path whose open and read both succeeded. -/
theorem checksumList_sumPaths :
    ∀ (l : List String) (hashOk : Bool) (disk : Disk) (st st1 : HState),
      checksumList hashOk disk st l = .ok st1 →
      ∀ p, p ∈ sumPaths st1.Sums →
        p ∈ sumPaths st.Sums ∨
          (p ∈ l ∧ (disk p).openOk = true ∧ (disk p).readOk = true) := by
  intro l
  induction l with
  | nil =>
    intro hashOk disk st st1 h p hp
    simp only [checksumList, Except.ok.injEq] at h
    subst h
    exact Or.inl hp
  | cons q rest ih =>
    intro hashOk disk st st1 h p hp
    simp only [checksumList] at h
    by_cases ho : (disk q).openOk
    · by_cases hh : hashOk
      · by_cases hr : (disk q).readOk
        · have ho1 : (!(disk q).openOk) = false := by simp [ho]
          have hh1 : (!hashOk) = false := by simp [hh]
          have hr1 : (!(disk q).readOk) = false := by simp [hr]
          simp only [checksumFile, ho1, hh1, hr1, if_false,
            Bool.false_eq_true] at h
          rcases ih hashOk disk _ st1 h p hp with hin | hin
          · rcases mem_sumPaths_addSum st.Sums (disk q).digest q p hin
              with h1 | h1
            · exact Or.inl h1
            · subst h1
              exact Or.inr ⟨List.mem_cons_self _ _, ho, hr⟩
          · exact Or.inr ⟨List.mem_cons_of_mem _ hin.1, hin.2⟩
        · have ho1 : (!(disk q).openOk) = false := by simp [ho]
          have hh1 : (!hashOk) = false := by simp [hh]
          have hr1 : (!(disk q).readOk) = true := by simpa using hr
          simp only [checksumFile, ho1, hh1, hr1, if_false, if_true,
            Bool.false_eq_true] at h
          rcases ih hashOk disk st st1 h p hp with hin | hin
          · exact Or.inl hin
          · exact Or.inr ⟨List.mem_cons_of_mem _ hin.1, hin.2⟩
      · have ho1 : (!(disk q).openOk) = false := by simp [ho]
        have hh1 : (!hashOk) = true := by simpa using hh
        simp [checksumFile, ho1, hh1] at h
    · have ho1 : (!(disk q).openOk) = true := by simpa using ho
      simp only [checksumFile, ho1, if_true] at h
      rcases ih hashOk disk st st1 h p hp with hin | hin
      · exact Or.inl hin
      · exact Or.inr ⟨List.mem_cons_of_mem _ hin.1, hin.2⟩

/-- C6: a candidate whose open or read fails is simply skipped — the
whole checksum stage behaves exactly as if the path had not been
dispatched at all (so every other file is unaffected and the run
continues), and the failed path ends up in no hash bucket. -/
theorem C6_io_failure_skips_file (disk : Disk) (st : HState)
    (xs ys : List String) (bad : String)
    (hfail : (disk bad).openOk = false ∨ (disk bad).readOk = false) :
    checksumList true disk st (xs ++ bad :: ys) =
      checksumList true disk st (xs ++ ys) ∧
    (∀ st1, checksumList true disk ⟨[], 0⟩ (xs ++ bad :: ys) = .ok st1 →
      ∀ d ps, (d, ps) ∈ st1.Sums → bad ∉ ps) := by
  constructor
  · induction xs generalizing st with
    | nil =>
      simp only [List.nil_append]
      have hstep : checksumFile true disk st bad = .ok st := by
        rcases hfail with hf | hf
        · have : (!(disk bad).openOk) = true := by simp [hf]
          simp [checksumFile, this]
        · have ho : (!(disk bad).openOk) = false ∨
              (!(disk bad).openOk) = true := by
            cases (!(disk bad).openOk) <;> simp
          rcases ho with ho | ho
          · simp [checksumFile, ho, hf]
          · simp [checksumFile, ho]
      simp only [checksumList, hstep]
    | cons x xs ih =>
      simp only [List.cons_append, checksumList]
      cases checksumFile true disk st x with
      | error e => rfl
      | ok st2 => exact ih st2
  · intro st1 hok d ps hmem hbad
    have hp : bad ∈ sumPaths st1.Sums := by
      simp only [sumPaths, List.mem_flatMap]
      exact ⟨(d, ps), hmem, hbad⟩
    rcases checksumList_sumPaths (xs ++ bad :: ys) true disk ⟨[], 0⟩ st1
        hok bad hp with hin | hin
    · simp [sumPaths] at hin
    · rcases hfail with hf | hf
      · rw [hin.2.1] at hf; simp at hf
      · rw [hin.2.2] at hf; simp at hf

/-- Witness for C6: `"b"` fails to open; the stage result over
`["a", "b", "c"]` equals the one over `["a", "c"]`, and `"b"` is in no
bucket of the concrete result. -/
theorem C6_io_failure_skips_file_witness :
    (((fun p => if p = "b" then FileBeh.mk false true "h"
        else FileBeh.mk true true "h") : Disk) "b").openOk = false ∧
    checksumList true
        (fun p => if p = "b" then FileBeh.mk false true "h"
          else FileBeh.mk true true "h") ⟨[], 0⟩ (["a"] ++ "b" :: ["c"]) =
      checksumList true
        (fun p => if p = "b" then FileBeh.mk false true "h"
          else FileBeh.mk true true "h") ⟨[], 0⟩ (["a"] ++ ["c"]) :=
  ⟨by decide,
   (C6_io_failure_skips_file
      (fun p => if p = "b" then FileBeh.mk false true "h"
        else FileBeh.mk true true "h") ⟨[], 0⟩ ["a"] ["c"] "b"
      (Or.inl (by decide))).1⟩

/-- C9 counterexample: one candidate whose open fails is processed, yet
the progress indicator stays at 0, not the 1 the claim requires. -/
theorem C9_counterexample_no_tick_on_failure :
    checksumList true ((fun _ => FileBeh.mk false true "h") : Disk) ⟨[], 0⟩
        ["a"] = .ok ⟨[], 0⟩ ∧
    (0 : Nat) ≠ 1 := ⟨by decide, by decide⟩

/-- C9 (amended): the progress indicator of the checksum stage advances
by exactly one per successfully hashed file; candidates whose open or
read fails do not advance it. -/
theorem C9_progress_per_success (hashOk : Bool) (disk : Disk) :
    ∀ (l : List String) (st st1 : HState),
      checksumList hashOk disk st l = .ok st1 →
      st1.progress = st.progress +
        (l.filter (fun p => (disk p).openOk && (disk p).readOk)).length := by
  intro l
  induction l with
  | nil =>
    intro st st1 h
    simp only [checksumList, Except.ok.injEq] at h
    subst h
    simp
  | cons q rest ih =>
    intro st st1 h
    simp only [checksumList] at h
    by_cases ho : (disk q).openOk
    · by_cases hh : hashOk
      · by_cases hr : (disk q).readOk
        · have ho1 : (!(disk q).openOk) = false := by simp [ho]
          have hh1 : (!hashOk) = false := by simp [hh]
          have hr1 : (!(disk q).readOk) = false := by simp [hr]
          simp only [checksumFile, ho1, hh1, hr1, if_false,
            Bool.false_eq_true] at h
          have hrec := ih _ st1 h
          have hcond : ((disk q).openOk && (disk q).readOk) = true := by
            simp [ho, hr]
          simp only [List.filter_cons, hcond, if_true] at hrec ⊢
          simp only [List.length_cons]
          omega
        · have ho1 : (!(disk q).openOk) = false := by simp [ho]
          have hh1 : (!hashOk) = false := by simp [hh]
          have hr1 : (!(disk q).readOk) = true := by simpa using hr
          simp only [checksumFile, ho1, hh1, hr1, if_false, if_true,
            Bool.false_eq_true] at h
          have hrec := ih _ st1 h
          have hcond : ((disk q).openOk && (disk q).readOk) = false := by
            simp [ho]
            simpa using hr
          simp only [List.filter_cons, hcond] at hrec ⊢
          simp only [Bool.false_eq_true, if_false]
          exact hrec
      · have ho1 : (!(disk q).openOk) = false := by simp [ho]
        have hh1 : (!hashOk) = true := by simpa using hh
        simp [checksumFile, ho1, hh1] at h
    · have ho1 : (!(disk q).openOk) = true := by simpa using ho
      simp only [checksumFile, ho1, if_true] at h
      have hrec := ih _ st1 h
      have hcond : ((disk q).openOk && (disk q).readOk) = false := by
        have : (disk q).openOk = false := by simpa using ho
        simp [this]
      simp only [List.filter_cons, hcond] at hrec ⊢
      simp only [Bool.false_eq_true, if_false]
      exact hrec

/-- Witness for C9 (amended): of two candidates, one fails to open; the
progress indicator ends at exactly 1. -/
theorem C9_progress_per_success_witness :
    checksumList true
        ((fun p => if p = "a" then FileBeh.mk false true "h"
          else FileBeh.mk true true "h") : Disk) ⟨[], 0⟩ ["a", "b"] =
      .ok ⟨[("h", ["b"])], 1⟩ ∧
    (1 : Nat) = 0 + ((["a", "b"].filter (fun p =>
      (((fun p => if p = "a" then FileBeh.mk false true "h"
        else FileBeh.mk true true "h") : Disk) p).openOk &&
      (((fun p => if p = "a" then FileBeh.mk false true "h"
        else FileBeh.mk true true "h") : Disk) p).readOk))).length :=
  ⟨by decide,
   C9_progress_per_success true
     (fun p => if p = "a" then FileBeh.mk false true "h"
       else FileBeh.mk true true "h") ["a", "b"] ⟨[], 0⟩ ⟨[("h", ["b"])], 1⟩
     (by decide)⟩

end D2hl
